import Mathlib

/-!
Verification of `contract_analyzer.py` (rule-based contract analyzer).

The program is shallowly embedded: text is `List Char`; Python's `re`
module is embedded as a small regular-expression AST (`RE`) with a
backtracking matcher that returns the match alternatives in Python's
preference order; the five regex patterns of the source are transcribed
into that AST; every extractor of the source is a Lean function over the
embedding.  External capabilities (NLTK's sentence/word tokenizers, the
NLTK stopword set, the Python `set` iteration order used by
`extract_dates`, and the filesystem read by `load_file`) are passed as
parameters, mirroring the module boundary of the source.
-/

set_option maxRecDepth 20000

/-- Text is modelled as a list of characters (Python `str`). -/
abbrev Txt := List Char

/-- Python's `\s` / `str.split()` / `str.strip()` whitespace class
(ASCII part: space, tab, newline, carriage return, vertical tab, form feed). -/
def isWsChar (c : Char) : Bool :=
  c.toNat == 32 || c.toNat == 9 || c.toNat == 10 || c.toNat == 13 ||
  c.toNat == 11 || c.toNat == 12

/-- Python's `\w` word-character class, ASCII fragment: letters, digits,
underscore.  The analyzed inputs are ASCII plus the rupee sign, which is a
currency symbol and not a word character in Python either. -/
def isWordChar (c : Char) : Bool := c.isAlpha || c.isDigit || c == '_'

/-- Python `str.lower` on the ASCII range (non-ASCII characters of the
analyzed inputs, such as the rupee sign, are unchanged, as in Python). -/
def lowerChar (c : Char) : Char :=
  if 65 ≤ c.toNat && c.toNat ≤ 90 then Char.ofNat (c.toNat + 32) else c

def lowerTxt (s : Txt) : Txt := s.map lowerChar

/-- Drop trailing whitespace: a character is kept unless it is whitespace
and everything after it strips to nothing. -/
def stripRight : Txt → Txt
  | [] => []
  | c :: r =>
    let rest := stripRight r
    if rest == [] && isWsChar c then [] else c :: rest

/-- Python `str.strip()` (no argument): drop whitespace from both ends. -/
def pyStrip (s : Txt) : Txt := stripRight (s.dropWhile isWsChar)

/-- One step of Python `str.split()` (whitespace split, empties dropped):
`cur` is the token accumulated so far, reversed. -/
def splitWsGo (cur : Txt) : Txt → List Txt
  | [] => if cur == [] then [] else [cur.reverse]
  | c :: r =>
    if isWsChar c then
      if cur == [] then splitWsGo [] r else cur.reverse :: splitWsGo [] r
    else splitWsGo (c :: cur) r

/-- Python `str.split()` with no argument. -/
def pySplitWs (s : Txt) : List Txt := splitWsGo [] s

/-- Python `sep.join(parts)`. -/
def joinWith (sep : Txt) : List Txt → Txt
  | [] => []
  | [x] => x
  | x :: xs => x ++ sep ++ joinWith sep xs

/-- Python `str.split(sep)` for a one-character separator. -/
def splitOnChar (sep : Char) : Txt → List Txt
  | [] => [[]]
  | c :: rest =>
    let r := splitOnChar sep rest
    if c == sep then [] :: r
    else
      match r with
      | h :: t => (c :: h) :: t
      | [] => [[c]]

/-- Worker for Python `str.splitlines()`: `cur` is the current line,
reversed; line boundaries are `\r\n`, `\r`, `\n`. -/
def splitlinesGo (cur : Txt) : Txt → List Txt
  | [] => [cur.reverse]
  | '\r' :: '\n' :: r => cur.reverse :: (if r == [] then [] else splitlinesGo [] r)
  | '\r' :: r => cur.reverse :: (if r == [] then [] else splitlinesGo [] r)
  | '\n' :: r => cur.reverse :: (if r == [] then [] else splitlinesGo [] r)
  | c :: r => splitlinesGo (c :: cur) r

/-- Python `str.splitlines()` (empty string gives no lines, a terminal
newline adds no empty line). -/
def pySplitlines : Txt → List Txt
  | [] => []
  | s => splitlinesGo [] s

/-- Does `pat` occur at the head of `s`? (helper for the Python `in`
substring test). -/
def headMatch : Txt → Txt → Bool
  | [], _ => true
  | _ :: _, [] => false
  | a :: as, b :: bs => a == b && headMatch as bs

/-- Python's substring test `pat in s`. -/
def isSub (pat : Txt) : Txt → Bool
  | [] => pat == []
  | c :: rest => headMatch pat (c :: rest) || isSub pat rest

/-- Worker for `dedupFirst`: `seen` is the set of elements already kept. -/
def dedupFirstGo (seen : List Txt) : List Txt → List Txt
  | [] => []
  | x :: xs =>
    if seen.contains x then dedupFirstGo seen xs
    else x :: dedupFirstGo (x :: seen) xs

/-- Python `dict.fromkeys` / `collections.Counter` key order: keep the
first occurrence of every element, in order of first appearance. -/
def dedupFirst (l : List Txt) : List Txt := dedupFirstGo [] l

/-! ### Embedding of the `re` fragment used by the source

Every quantifier in the source's five patterns either ranges over a
single-character class (`\d{1,2}`, `[\d,]*`, `\s+`, `.+?`, `{3,}`, `\s?`,
`\.?`) or is a greedy `(?:...)?` option, so the AST needs character-class
repetition (`rep`), literals, sequencing, alternation and capture groups,
plus the zero-width `\b`.  `(?:...)?` is expressed as an alternation with
the empty literal, which is exactly Python's greedy-option preference
order.  The matcher returns the list of all ways the expression can match
a prefix of the input, in Python's backtracking preference order, so the
head of the list is the match Python produces. -/

inductive RE where
  /-- literal run of characters (matched case-insensitively when the
  pattern is compiled with `re.IGNORECASE`); `lit []` is ε -/
  | lit (s : Txt)
  /-- Repetition `p{lo,hi}` over a one-character class, `hi = none` meaning unbounded;
  `lazy = true` for `+?`-style reluctant repetition -/
  | rep (p : Char → Bool) (lo : Nat) (hi : Option Nat) (lazy : Bool)
  | seq (a b : RE)
  | alt (a b : RE)
  | group (n : Nat) (a : RE)
  /-- the zero-width word-boundary assertion `\b` -/
  | wordB

/-- Greedy `(?:a)?`. -/
def RE.opt (a : RE) : RE := RE.alt a (RE.lit [])

/-- Captured groups of one match alternative: group number paired with the
captured characters (innermost-set entry first; the source's groups are
never nested, so lookup by first entry is exact). -/
abbrev Caps := List (Nat × Txt)

/-- Last character of `l`, falling back to `p` when `l` is empty; used to
track the character to the left of the current position for `\b`. -/
def lastD (l : Txt) (p : Option Char) : Option Char :=
  match l.getLast? with
  | some c => some c
  | none => p

/-- Consume the literal `litS` from the head of `s`, case-insensitively if
`ci`; returns the consumed input characters and the rest. -/
def takeLit (ci : Bool) : Txt → Txt → Option (Txt × Txt)
  | [], s => some ([], s)
  | _ :: _, [] => none
  | a :: as, c :: cs =>
    if (if ci then lowerChar a == lowerChar c else a == c) then
      (takeLit ci as cs).map (fun pr => (c :: pr.1, pr.2))
    else none

/-- All ways `p{lo,hi}` can match a prefix of `s`: number of consumed
characters ranges over `lo..min hi k` where `k` is the maximal run of
`p`-characters; greedy tries longest first, lazy shortest first.  Each
outcome is the new left-context character and the remaining input. -/
def repOutcomes (p : Char → Bool) (lo : Nat) (hi : Option Nat) (lazy : Bool)
    (prev : Option Char) (s : Txt) : List (Option Char × Txt) :=
  let k := (s.takeWhile p).length
  let m := match hi with | none => k | some h => min k h
  if lo > m then []
  else
    let idxs := (List.range (m - lo + 1)).map (· + lo)
    let idxs := if lazy then idxs else idxs.reverse
    idxs.map (fun i => (if i == 0 then prev else lastD (s.take i) prev, s.drop i))

/-- Is the optional character a word character? (string edges count as
non-word for `\b`). -/
def isWordOpt : Option Char → Bool
  | some c => isWordChar c
  | none => false

/-- All ways `re` can match a prefix of the input, in Python's preference
order: `prev` is the character immediately left of the current position,
`s` the remaining input, `caps` the groups captured so far.  Each outcome
gives the new left context, the remaining input, and the captures. -/
def mall (ci : Bool) : RE → Option Char → Txt → Caps → List (Option Char × Txt × Caps)
  | RE.lit litS, prev, s, caps =>
    match takeLit ci litS s with
    | some (consumed, rest) => [(lastD consumed prev, rest, caps)]
    | none => []
  | RE.rep p lo hi lazy, prev, s, caps =>
    (repOutcomes p lo hi lazy prev s).map (fun pr => (pr.1, pr.2, caps))
  | RE.seq a b, prev, s, caps =>
    (mall ci a prev s caps).flatMap (fun out => mall ci b out.1 out.2.1 out.2.2)
  | RE.alt a b, prev, s, caps =>
    mall ci a prev s caps ++ mall ci b prev s caps
  | RE.group n a, prev, s, caps =>
    (mall ci a prev s caps).map
      (fun out => (out.1, out.2.1, (n, s.take (s.length - out.2.1.length)) :: out.2.2))
  | RE.wordB, prev, s, caps =>
    if isWordOpt prev != isWordOpt s.head? then [(prev, s, caps)] else []

/-- Python `re.search`: try each start position from the left; at the
first position where the pattern matches, return the captures of the
preferred (first) alternative. -/
def searchAux (ci : Bool) (re : RE) (prev : Option Char) (s : Txt) : Option Caps :=
  match mall ci re prev s [] with
  | out :: _ => some out.2.2
  | [] =>
    match s with
    | [] => none
    | c :: rest => searchAux ci re (some c) rest

def pySearch (ci : Bool) (re : RE) (s : Txt) : Option Caps :=
  searchAux ci re none s

/-- Python `re.findall` for the source's patterns (each has at most one
capture group spanning, up to zero-width assertions, the whole pattern, so
`findall` returns the full matched substrings): scan left to right,
resuming after each non-empty match and one character after an empty one. -/
def findallAux (ci : Bool) (re : RE) : Nat → Option Char → Txt → List Txt
  | 0, _, _ => []
  | fuel + 1, prev, s =>
    match mall ci re prev s [] with
    | out :: _ =>
      let rest := out.2.1
      let m := s.take (s.length - rest.length)
      if rest.length < s.length then m :: findallAux ci re fuel out.1 rest
      else
        match s with
        | [] => [m]
        | c :: cs => m :: findallAux ci re fuel (some c) cs
    | [] =>
      match s with
      | [] => []
      | c :: cs => findallAux ci re fuel (some c) cs

/-- The fuel `s.length + 1` always suffices: every recursive call of
`findallAux` is on a strictly shorter remaining input (the guarded branch
checks it, the empty-match and no-match branches drop one character), so
the fuel strictly dominates the remaining length throughout the scan. -/
def pyFindall (ci : Bool) (re : RE) (s : Txt) : List Txt :=
  findallAux ci re (s.length + 1) none s

/-- Python `m.groups()` for a pattern with `ng` groups: the captured text of each
group `1..ng`, `none` for groups not set by the matched alternative. -/
def groupsOf (ng : Nat) (caps : Caps) : List (Option Txt) :=
  (List.range ng).map (fun i => (caps.find? (fun e => e.1 == i + 1)).map (fun e => e.2))

/-! ### The Pattern Library (transcribed from the source's regex strings) -/

/-- Literal from a string. -/
def L (s : String) : RE := RE.lit s.data

/-- Never-matching expression (used to terminate alternation folds). -/
def RE.fail : RE := RE.rep (fun _ => false) 1 (some 1) false

/-- Right-nested sequencing of a list. -/
def RE.cat (rs : List RE) : RE := rs.foldr RE.seq (RE.lit [])

/-- Left-to-right alternation of a list (Python preference order). -/
def RE.alts : List RE → RE
  | [] => RE.fail
  | [r] => r
  | r :: rs => RE.alt r (RE.alts rs)

def digitP (c : Char) : Bool := c.isDigit
def digitCommaP (c : Char) : Bool := c.isDigit || c == ','
/-- Dot: any character except newline (the patterns use no DOTALL). -/
def dotP (c : Char) : Bool := c != '\n'
/-- Class `[A-Za-z0-9 ,]` -/
def dateClsP (c : Char) : Bool := c.isAlpha || c.isDigit || c == ' ' || c == ','
/-- the dash-or-slash character class of the numeric date forms -/
def dashSlashP (c : Char) : Bool := c == '-' || c == '/'
/-- Class `[:\-]` -/
def colonDashP (c : Char) : Bool := c == ':' || c == '-'
/-- Class `[A-Z]` -/
def upperP (c : Char) : Bool := 65 ≤ c.toNat && c.toNat ≤ 90
/-- Class `[A-Z0-9 &(),\.-]` -/
def capsClsP (c : Char) : Bool :=
  upperP c || c.isDigit || c == ' ' || c == '&' || c == '(' || c == ')' ||
  c == ',' || c == '.' || c == '-'

/-- Whitespace `\s+` -/
def sPlus : RE := RE.rep isWsChar 1 none false
/-- Whitespace `\s*` -/
def sStar : RE := RE.rep isWsChar 0 none false
/-- Whitespace `\s?` -/
def sOpt : RE := RE.rep isWsChar 0 (some 1) false
/-- Digit `\d` -/
def dig1 : RE := RE.rep digitP 1 (some 1) false
/-- Class `[\d,]*` -/
def digCommaStar : RE := RE.rep digitCommaP 0 none false
/-- Decimals `(?:\.\d+)?` -/
def decimalsOpt : RE := RE.opt (RE.cat [RE.rep (fun c => c == '.') 1 (some 1) false,
                                        RE.rep digitP 1 none false])
/-- Reluctant `.+?` -/
def lazyDotPlus : RE := RE.rep dotP 1 none true

/-- The month-name alternation of `DATE_PAT`, in the source's order. -/
def monthAlt : RE := RE.alts [L "Jan", L "Feb", L "March", L "Mar", L "Apr", L "May",
  L "Jun", L "Jul", L "Aug", L "Sep", L "Sept", L "Oct", L "Nov", L "Dec",
  L "January", L "February", L "March", L "April", L "May", L "June", L "July",
  L "August", L "September", L "October", L "November", L "December"]

/-- The `DATE_PAT` rule (source line 29).  The whole pattern is one capture group
whose inner groups are all non-capturing, so `re.findall` returns the full
matched substrings; the group wrapper is therefore not represented. -/
def DATE_PAT : RE := RE.alts [
  RE.cat [RE.wordB, RE.rep digitP 1 (some 2) false,
          RE.opt (RE.alts [L "st", L "nd", L "rd", L "th"]), sPlus, monthAlt,
          RE.wordB, sPlus, RE.rep digitP 2 (some 4) false],
  RE.cat [RE.wordB, RE.rep digitP 1 (some 2) false, RE.rep dashSlashP 1 (some 1) false,
          RE.rep digitP 1 (some 2) false, RE.rep dashSlashP 1 (some 1) false,
          RE.rep digitP 2 (some 4) false, RE.wordB],
  RE.cat [RE.wordB, RE.rep digitP 4 (some 4) false, RE.rep dashSlashP 1 (some 1) false,
          RE.rep digitP 1 (some 2) false, RE.rep dashSlashP 1 (some 1) false,
          RE.rep digitP 1 (some 2) false, RE.wordB],
  RE.cat [RE.wordB, L "effective", sPlus, L "as", sPlus, L "of", sPlus,
          RE.rep dateClsP 1 none false, RE.wordB],
  RE.cat [RE.wordB, L "effective", sPlus, L "date", sStar,
          RE.rep colonDashP 0 (some 1) false, sStar,
          RE.rep dateClsP 1 none false, RE.wordB]]

/-- The `MONEY_PAT` rule (source line 35). -/
def MONEY_PAT : RE := RE.alts [
  RE.cat [RE.wordB, L "₹", sOpt, dig1, digCommaStar, decimalsOpt, RE.wordB],
  RE.cat [RE.wordB, L "Rs", RE.rep (fun c => c == '.') 0 (some 1) false, sOpt,
          dig1, digCommaStar, decimalsOpt, RE.wordB],
  RE.cat [RE.wordB, L "USD", sOpt, dig1, digCommaStar, decimalsOpt, RE.wordB],
  RE.cat [RE.wordB, L "EUR", sOpt, dig1, digCommaStar, decimalsOpt, RE.wordB],
  RE.cat [RE.wordB, dig1, digCommaStar, decimalsOpt, sOpt,
          RE.alts [L "dollars", L "rupees", L "INR", L "USD", L "EUR"], RE.wordB]]

/-- The secondary date rule of `extract_dates` (source line 77):
`\bon\s+[A-Za-z0-9 ,]+\s+\d{4}\b`. -/
def FALLBACK_ON_PAT : RE :=
  RE.cat [RE.wordB, L "on", sPlus, RE.rep dateClsP 1 none false, sPlus,
          RE.rep digitP 4 (some 4) false, RE.wordB]

/-- The `PARTY_PATTERNS` list (source lines 42-49), each paired with its number of
capture groups. -/
def PARTY_PATTERNS : List (RE × Nat) := [
  (RE.cat [RE.wordB, L "this", sPlus, L "agreement", sPlus,
           RE.opt (RE.cat [L "is", sPlus]),
           RE.alts [L "made", RE.cat [L "entered", sPlus, L "into"]], sPlus,
           RE.opt (RE.cat [L "on", sPlus, RE.rep dateClsP 1 none false]), sStar,
           RE.alts [L "between", L "by and between"], sPlus,
           RE.group 1 lazyDotPlus, sPlus, L "and", sPlus,
           RE.group 2 lazyDotPlus, RE.wordB], 2),
  (RE.alt (RE.cat [RE.wordB, L "between", sPlus, RE.group 1 lazyDotPlus, sPlus, L "("])
          (RE.cat [L "between", sPlus, RE.group 2 lazyDotPlus, sPlus, L "and", sPlus,
                   RE.group 3 lazyDotPlus, RE.wordB]), 3),
  (RE.cat [RE.wordB, L "by", sPlus, L "and", sPlus, L "between", sPlus,
           RE.group 1 lazyDotPlus, sPlus, L "and", sPlus,
           RE.group 2 lazyDotPlus, RE.wordB], 2)]

/-- The capitalized-heading rule of the party fallback (source line 107):
`\b([A-Z][A-Z0-9 &(),\.-]{3,})\b`, compiled without IGNORECASE. -/
def CAPS_HEAD_PAT : RE :=
  RE.cat [RE.wordB, RE.group 1 (RE.cat [RE.rep upperP 1 (some 1) false,
                                        RE.rep capsClsP 3 none false]), RE.wordB]

/-- The `OBL_KEYWORDS` list (source line 38). -/
def OBL_KEYWORDS : List Txt :=
  [("shall").data, ("must").data, ("agree").data, ("agrees").data, ("obligat").data,
   ("responsib").data, ("undertake").data, ("require").data, ("warrant").data,
   ("covenant").data, ("will").data]

/-- The `TERMINATION_KEYWORDS` list (source line 40). -/
def TERMINATION_KEYWORDS : List Txt :=
  [("terminate").data, ("termination").data, ("expire").data, ("expiry").data,
   ("notice period").data, ("notice").data, ("breach").data, ("cancel").data,
   ("cancelled").data]

/-! ### Entity extractors (source lines 72-134) -/

/-- The pool that `extract_dates` (source lines 72-78) pours into its
Python set: primary-rule matches (each split on newlines, empties
dropped), then fallback-rule matches, each stripped.  The `matches and
isinstance(matches[0], str)` guard of line 75 is always satisfied when
`matches` is non-empty (one capture group means string results), and both
sides yield `[]` when it is empty, so the flattening is unconditional. -/
def extract_dates_pool (text : Txt) : List Txt :=
  let ms := pyFindall true DATE_PAT text
  let flat := ms.flatMap (fun grp => (splitOnChar '\n' grp).filter (fun m => m ≠ []))
  let fallback := pyFindall true FALLBACK_ON_PAT text
  (flat ++ fallback).map pyStrip

/-- The `extract_dates` function (source lines 72-79).  Line 78 is
`dates = list({m.strip() for m in flat + fallback})`: the dedup goes
through a Python `set`, whose iteration order is hash-based; `setList` is
that set-enumeration capability (it returns the distinct elements of the
pool in the interpreter's iteration order, which the embedding leaves
abstract). -/
def extract_dates (setList : List Txt → List Txt) (text : Txt) : List Txt :=
  (setList (extract_dates_pool text)).take 10

/-- The `extract_money` function (source lines 81-84): findall, strip each match,
dedup preserving first-seen order (`dict.fromkeys`), first 10. -/
def extract_money (text : Txt) : List Txt :=
  let ms := pyFindall true MONEY_PAT text
  let cleaned := ms.map pyStrip
  (dedupFirst cleaned).take 10

/-- Python `re.sub` with the pattern matching two-or-more whitespace: replace
every maximal whitespace run of length at least 2 by a single space
(source line 96). -/
def collapseWs2Go : Nat → Txt → Txt
  | 0, s => s
  | fuel + 1, s =>
    match s with
    | [] => []
    | c :: r =>
      if isWsChar c && (match r with | c2 :: _ => isWsChar c2 | [] => false) then
        ' ' :: collapseWs2Go fuel (r.dropWhile isWsChar)
      else c :: collapseWs2Go fuel r

/-- The fuel `s.length + 1` suffices: each step of `collapseWs2Go`
consumes at least one input character. -/
def collapseWs2 (s : Txt) : Txt := collapseWs2Go (s.length + 1) s

/-- Python `re.sub` with the parenthetical pattern (source line 98): remove every
leftmost occurrence of an opening paren, one or more non-close-paren
characters, and a closing paren.  An immediately closed pair is not an
occurrence (the inner class needs at least one character). -/
def removeParensGo : Nat → Txt → Txt
  | 0, s => s
  | fuel + 1, s =>
    match s with
    | [] => []
    | c :: r =>
      if c == '(' then
        match r.findIdx? (fun d => d == ')') with
        | some k =>
          if k == 0 then '(' :: removeParensGo fuel r
          else removeParensGo fuel (r.drop (k + 1))
        | none => '(' :: removeParensGo fuel r
      else c :: removeParensGo fuel r

/-- The fuel `s.length + 1` suffices: each step of `removeParensGo`
consumes at least one input character. -/
def removeParens (s : Txt) : Txt := removeParensGo (s.length + 1) s

/-- The per-group cleaning of `extract_parties` (source lines 96-99):
collapse inner whitespace runs, strip, drop parenthetical short forms,
strip again. -/
def cleanGroup (g : Txt) : Txt :=
  pyStrip (removeParens (pyStrip (collapseWs2 g)))

/-- The group-processing loop of `extract_parties` (source lines 93-100):
take the set groups that are non-empty (`if g`), clean each, and keep the
cleaned spans that are non-empty and longer than 2 characters. -/
def foundOfCaps (ng : Nat) (caps : Caps) : List Txt :=
  (((groupsOf ng caps).filterMap id).filter (fun g => g ≠ [])).filterMap
    (fun g =>
      let gc := cleanGroup g
      if gc ≠ [] && gc.length > 2 then some gc else none)

/-- The pattern loop of `extract_parties` (source lines 90-102): try each
party pattern in order on the whitespace-collapsed text; stop at the first
pattern whose match contributes at least one cleaned span. -/
def tryPatterns : List (RE × Nat) → Txt → List Txt
  | [], _ => []
  | (pat, ng) :: rest, tc =>
    match pySearch true pat tc with
    | none => tryPatterns rest tc
    | some caps =>
      let found := foundOfCaps ng caps
      if found == [] then tryPatterns rest tc else found

/-- One iteration of the heading-fallback candidate loop (source lines
110-113): keep the stripped candidate if its lowercase form is not a
stopword, it is longer than 3 characters, and it was not already kept. -/
def uniqStep (isStop : Txt → Bool) (uniq : List Txt) (c : Txt) : List Txt :=
  if !isStop (lowerTxt (pyStrip c)) && (pyStrip c).length > 3 &&
      !(uniq.contains (pyStrip c)) then
    uniq ++ [pyStrip c]
  else uniq

/-- The candidate loop of the heading fallback (source lines 109-115):
process candidates in order with `uniqStep`, stopping once 2 are kept. -/
def uniqTake2 (isStop : Txt → Bool) (uniq : List Txt) : List Txt → List Txt
  | [] => uniq
  | c :: cs =>
    if (uniqStep isStop uniq c).length ≥ 2 then uniqStep isStop uniq c
    else uniqTake2 isStop (uniqStep isStop uniq c) cs

/-- The `extract_parties` function (source lines 86-117).  `isStop` is the NLTK
stopword-set capability (`STOPWORDS` of source line 26). -/
def extract_parties (isStop : Txt → Bool) (text : Txt) : List Txt :=
  let tc := joinWith [' '] (pySplitWs text)
  let found := tryPatterns PARTY_PATTERNS tc
  let found :=
    if found == [] then
      let headLines := (pySplitlines text).take 40
      let caps := pyFindall false CAPS_HEAD_PAT (joinWith ['\n'] headLines)
      uniqTake2 isStop [] caps
    else found
  found.take 2

/-- The keyword loop of `find_sentences_by_keywords` (source lines
124-127): the `for kw ... break` appends the sentence once as soon as one
keyword is a substring of its lowercased form, i.e. an `any`. -/
def sentenceHasKw (keywords : List Txt) (low : Txt) : Bool :=
  keywords.any (fun kw => isSub kw low)

/-- The sentence loop of `find_sentences_by_keywords` (source lines
122-127). -/
def findSents (keywords : List Txt) : List Txt → List Txt
  | [] => []
  | s :: rest =>
    if sentenceHasKw keywords (lowerTxt s) then pyStrip s :: findSents keywords rest
    else findSents keywords rest

/-- The `find_sentences_by_keywords` function (source lines 119-128); `sentTok` is the
NLTK `sent_tokenize` capability. -/
def find_sentences_by_keywords (sentTok : Txt → List Txt) (text : Txt)
    (keywords : List Txt) : List Txt :=
  findSents keywords (sentTok text)

/-- Python `str.isalpha`: non-empty and every character alphabetic
(ASCII fragment). -/
def pyIsAlpha (w : Txt) : Bool := w ≠ [] && w.all Char.isAlpha

/-- The qualifying-word list of `keyword_summary` (source line 131):
alphabetic non-stopword tokens, lowercased; `wordTok` is the NLTK
`word_tokenize` capability. -/
def keywordWords (wordTok : Txt → List Txt) (isStop : Txt → Bool) (text : Txt) : List Txt :=
  ((wordTok text).filter (fun w => pyIsAlpha w && !isStop (lowerTxt w))).map lowerTxt

/-- Stable descending insertion (an element passes every strictly larger
key and stops at the first key less than or equal to its own). -/
def insertDesc (key : Txt → Nat) (x : Txt) : List Txt → List Txt
  | [] => [x]
  | y :: ys => if key x < key y then y :: insertDesc key x ys else x :: y :: ys

/-- Stable sort by descending key: equal-key elements keep their input
order. -/
def stableSortDesc (key : Txt → Nat) : List Txt → List Txt
  | [] => []
  | x :: xs => insertDesc key x (stableSortDesc key xs)

/-- Python `Counter(words).most_common(n)` keys: the counter's keys in
first-occurrence order, stably sorted by descending count, first `n`
(CPython documents `most_common` as equivalent to a stable descending
sort of the insertion-ordered items). -/
def mostCommonKeys (words : List Txt) (n : Nat) : List Txt :=
  (stableSortDesc (fun w => words.count w) (dedupFirst words)).take n

/-- The `keyword_summary` function (source lines 130-134); the source's default for
`top_n` is 10. -/
def keyword_summary (wordTok : Txt → List Txt) (isStop : Txt → Bool) (text : Txt)
    (top_n : Nat := 10) : List Txt :=
  mostCommonKeys (keywordWords wordTok isStop text) top_n

/-- The result record assembled by `analyze_contract` (source lines
149-157). -/
structure ExtractionResult where
  parties : List Txt
  dates_found : List Txt
  money_values : List Txt
  obligation_sentences : List Txt
  termination_sentences : List Txt
  top_keywords : List Txt
  short_summary : Txt
  deriving Repr, DecidableEq

/-- The analysis pipeline of `analyze_contract` applied to loaded text
(source lines 138-158: everything after `load_file`). -/
def analyze_contract_text (sentTok wordTok : Txt → List Txt) (isStop : Txt → Bool)
    (setList : List Txt → List Txt) (text : Txt) : ExtractionResult :=
  let parties := extract_parties isStop text
  let dates := extract_dates setList text
  let money := extract_money text
  let obligations := find_sentences_by_keywords sentTok text OBL_KEYWORDS
  let termination := find_sentences_by_keywords sentTok text TERMINATION_KEYWORDS
  let keywords := keyword_summary wordTok isStop text 12
  let sents := sentTok text
  let shortSummary := if sents == [] then [] else joinWith [' '] (sents.take 4)
  { parties := parties
    dates_found := dates
    money_values := money
    obligation_sentences := obligations.take 10
    termination_sentences := termination.take 8
    top_keywords := keywords
    short_summary := shortSummary }

/-! ### File loading and the public entry point (source lines 51-70, 136-137) -/

/-- The exceptions `load_file` can raise: `FileNotFoundError` (source
line 66) and the `RuntimeError` of `read_docx` when python-docx is not
installed (source line 53). -/
inductive LoadError where
  | fileNotFound (path : Txt)
  | docxUnavailable
  deriving Repr, DecidableEq

/-- Python `pathlib.Path.suffix` (the lowercased comparison happens at the caller):
the final dotted extension of the last path component, empty when there is
no dot or the name starts with its only dot. -/
def pySuffix (path : Txt) : Txt :=
  let base :=
    match (splitOnChar '/' path).getLast? with
    | some b => b
    | none => []
  match (base.reverse.findIdx? (fun d => d == '.')).map (fun k => base.length - 1 - k) with
  | some i => if i == 0 then [] else base.drop i
  | none => []

/-- The `.docx` dispatch test of `load_file` (source line 67). -/
def hasDocxSuffix (path : Txt) : Bool := lowerTxt (pySuffix path) == ('.' :: ('d' :: ('o' :: ('c' :: ('x' :: [])))))

/-- The `load_file` function (source lines 63-70).  `fs` is the filesystem capability
(`None` means `Path.exists()` is false); `docAvailable` models whether
python-docx imported; `docxRead` models `read_docx`'s paragraph join. -/
def load_file (fs : Txt → Option Txt) (docAvailable : Bool) (docxRead : Txt → Txt)
    (path : Txt) : Except LoadError Txt :=
  match fs path with
  | none => Except.error (LoadError.fileNotFound path)
  | some content =>
    if hasDocxSuffix path then
      if docAvailable then Except.ok (docxRead path) else Except.error LoadError.docxUnavailable
    else Except.ok content

/-- The `analyze_contract` function (source lines 136-158): load the file at the given
path (exceptions propagate), then run the pipeline on the loaded text. -/
def analyze_contract (fs : Txt → Option Txt) (docAvailable : Bool) (docxRead : Txt → Txt)
    (sentTok wordTok : Txt → List Txt) (isStop : Txt → Bool)
    (setList : List Txt → List Txt) (path : Txt) : Except LoadError ExtractionResult :=
  match load_file fs docAvailable docxRead path with
  | Except.error e => Except.error e
  | Except.ok text => Except.ok (analyze_contract_text sentTok wordTok isStop setList text)

/-! ### Concrete inputs used by the claims -/

/-- The scenario input text of the specification. -/
def scenarioText : Txt :=
  ("This Agreement is made between Acme Corp and Beta LLC on 1 January 2024. Acme shall pay Beta ₹50,000 within 30 days. This Agreement may be terminated with 30 days notice.").data

/-- A contract line whose party pattern captures the same span twice. -/
def dupPartyText : Txt := ("This agreement is made between Acme and Acme").data

/-- A text containing two distinct date matches. -/
def twoDatesText : Txt := ("1/2/2020 and 3/4/2021").data

/-- Thirteen distinct alphabetic words (no repeats). -/
def thirteenWordsText : Txt :=
  ("alpha bravo charlie delta echo foxtrot golf hotel india juliet kilo lima mike").data

/-- Ten distinct alphabetic words. -/
def tenWordsText : Txt :=
  ("alpha bravo charlie delta echo foxtrot golf hotel india juliet").data

/-- A text with a controlled frequency tie: both `b` and `a` occur twice,
`b` first. -/
def tieText : Txt := ("b a b a c").data

/-- No two entries of the list are identical after whitespace trimming
(the deduplication invariant of the spec). -/
def DistinctAfterTrim (l : List Txt) : Prop :=
  l.Pairwise (fun a b => pyStrip a ≠ pyStrip b)

/-- Last character of a non-empty list given as head and tail. -/
def lastOfCons (k : Char) : Txt → Char
  | [] => k
  | k2 :: kt2 => lastOfCons k2 kt2

/-- A keyword is edge-clean when it is non-empty and neither its first nor
its last character is whitespace (true of every configured keyword; it is
what makes substring hits survive sentence trimming). -/
def kwEdgesOk : Txt → Bool
  | [] => false
  | k :: kt => !isWsChar k && !isWsChar (lastOfCons k kt)

/-! ### Helper lemmas -/

theorem length_insertDesc (key : Txt → Nat) (x : Txt) (l : List Txt) :
    (insertDesc key x l).length = l.length + 1 := by
  induction l with
  | nil => rfl
  | cons y ys ih =>
    simp only [insertDesc]
    split
    · simp [ih]
    · simp

theorem length_stableSortDesc (key : Txt → Nat) (l : List Txt) :
    (stableSortDesc key l).length = l.length := by
  induction l with
  | nil => rfl
  | cons x xs ih => simp [stableSortDesc, length_insertDesc, ih]

/-! ### Claim theorems -/

/-- C1 (counterexample): on the scenario text the party extractor does not
return "Beta LLC": the lazy second capture of the first party pattern
stops at the first word boundary, so the second party comes out as "Beta". -/
theorem c1_counterexample :
    ("Beta LLC").data ∉ extract_parties (fun _ => false) scenarioText := by decide

/-- C1 (amended): on the scenario text the party extractor returns exactly
["Acme Corp", "Beta"], in discovery order, for every stopword capability
(the regex path never consults stopwords). -/
theorem c1_parties_on_scenario :
    ∀ isStop : Txt → Bool,
      extract_parties isStop scenarioText = [("Acme Corp").data, ("Beta").data] :=
  fun _ => rfl

/-- C2: on the scenario text the money extractor returns no values at all:
`\b` before the rupee sign never matches after a space because the rupee
sign is not a word character, and no other money alternative applies. -/
theorem c2_money_empty_on_scenario : extract_money scenarioText = [] := by decide

/-- C3: on the failing input the date pool (primary then fallback rule, in
discovery order) holds two distinct trimmed matches; the source then pours
this pool through a Python `set` whose iteration order is hash-based, so
the returned order is not the discovery order and not a deterministic
function of the text. -/
theorem c3_pool_two_distinct :
    extract_dates_pool twoDatesText = [("1/2/2020").data, ("3/4/2021").data] ∧
    (("1/2/2020").data : Txt) ≠ ("3/4/2021").data := by decide

/-- C4 (counterexample): the regex path of the party extractor can return
the same cleaned span twice, so the parties list is not duplicate-free
after trimming. -/
theorem c4_counterexample :
    ¬ DistinctAfterTrim (extract_parties (fun _ => false) dupPartyText) := by
  have he : extract_parties (fun _ => false) dupPartyText =
      [("Acme").data, ("Acme").data] := by decide
  rw [DistinctAfterTrim, he]
  intro h
  exact (List.pairwise_cons.mp h).1 _ (List.mem_cons_self _ _) rfl

/-- C5 (counterexample): a text with 13 distinct qualifying words on which
the summarizer invoked without a top-N argument returns 10 keywords, not
12: the source's default is `top_n=10`. -/
theorem c5_counterexample :
    12 ≤ (dedupFirst (keywordWords pySplitWs (fun _ => false) thirteenWordsText)).length ∧
    (keyword_summary pySplitWs (fun _ => false) thirteenWordsText).length ≠ 12 := by decide

/-- C5 (amended): the keyword summarizer's top-N defaults to 10: whenever
at least 10 distinct qualifying words exist, the default call returns
exactly 10 keywords (the orchestrator passes 12 explicitly). -/
theorem c5_default_is_ten (wordTok : Txt → List Txt) (isStop : Txt → Bool) (text : Txt)
    (h : 10 ≤ (dedupFirst (keywordWords wordTok isStop text)).length) :
    (keyword_summary wordTok isStop text).length = 10 := by
  unfold keyword_summary mostCommonKeys
  rw [List.length_take, length_stableSortDesc]
  omega

/-- Witness for C5 (amended) at a concrete 10-word text. -/
theorem c5_default_is_ten_witness :
    10 ≤ (dedupFirst (keywordWords pySplitWs (fun _ => false) tenWordsText)).length ∧
    (keyword_summary pySplitWs (fun _ => false) tenWordsText).length = 10 :=
  ⟨by decide, c5_default_is_ten pySplitWs (fun _ => false) tenWordsText (by decide)⟩

/-- C6: every capped collection of the assembled analysis record obeys its
cap: at most 2 parties, 10 dates, 10 money values, 10 obligation
sentences, 8 termination sentences and 12 top keywords, for every input
text and every tokenizer/stopword/set-order capability. -/
theorem c6_result_caps (sentTok wordTok : Txt → List Txt) (isStop : Txt → Bool)
    (setList : List Txt → List Txt) (text : Txt) :
    (analyze_contract_text sentTok wordTok isStop setList text).parties.length ≤ 2 ∧
    (analyze_contract_text sentTok wordTok isStop setList text).dates_found.length ≤ 10 ∧
    (analyze_contract_text sentTok wordTok isStop setList text).money_values.length ≤ 10 ∧
    (analyze_contract_text sentTok wordTok isStop setList text).obligation_sentences.length ≤ 10 ∧
    (analyze_contract_text sentTok wordTok isStop setList text).termination_sentences.length ≤ 8 ∧
    (analyze_contract_text sentTok wordTok isStop setList text).top_keywords.length ≤ 12 :=
  ⟨List.length_take_le _ _, List.length_take_le _ _, List.length_take_le _ _,
   List.length_take_le _ _, List.length_take_le _ _, List.length_take_le _ _⟩

/-- C10: the public entry point takes a file path; for every path naming
no existing file it raises `FileNotFoundError` before any extraction runs
and no analysis record is produced. -/
theorem c10_missing_file (fs : Txt → Option Txt) (docAvailable : Bool)
    (docxRead : Txt → Txt) (sentTok wordTok : Txt → List Txt) (isStop : Txt → Bool)
    (setList : List Txt → List Txt) (path : Txt) (h : fs path = none) :
    analyze_contract fs docAvailable docxRead sentTok wordTok isStop setList path =
      Except.error (LoadError.fileNotFound path) := by
  unfold analyze_contract load_file
  rw [h]

/-- Witness for C10 on an empty filesystem and the path "missing.txt". -/
theorem c10_missing_file_witness :
    ((fun _ : Txt => (none : Option Txt)) (("missing.txt").data) = none) ∧
    analyze_contract (fun _ => none) true (fun _ => []) (fun _ => []) (fun _ => [])
        (fun _ => false) (fun l => l) (("missing.txt").data) =
      Except.error (LoadError.fileNotFound (("missing.txt").data)) :=
  ⟨rfl, c10_missing_file (fun _ => none) true (fun _ => []) (fun _ => []) (fun _ => [])
      (fun _ => false) (fun l => l) (("missing.txt").data) rfl⟩

/-- C7: analyzing the empty string (with tokenizers that return no
sentences and no words on it, as NLTK does) produces a fully formed record
whose collections are all empty and whose short summary is the empty
string. -/
theorem c7_empty_input (sentTok wordTok : Txt → List Txt) (isStop : Txt → Bool)
    (setList : List Txt → List Txt)
    (hsent : sentTok [] = []) (hword : wordTok [] = [])
    (hset : ∀ l x, x ∈ setList l → x ∈ l) :
    analyze_contract_text sentTok wordTok isStop setList [] =
      { parties := [], dates_found := [], money_values := [],
        obligation_sentences := [], termination_sentences := [],
        top_keywords := [], short_summary := [] } := by
  have hs0 : setList [] = [] :=
    List.eq_nil_iff_forall_not_mem.mpr (fun a ha => (List.not_mem_nil a) (hset [] a ha))
  have hp : extract_dates_pool ([] : Txt) = [] := rfl
  simp only [analyze_contract_text, extract_dates, find_sentences_by_keywords,
    keyword_summary, keywordWords, hsent, hword, hp, hs0]
  rfl

/-- Witness for C7 with empty tokenizers and the identity set order. -/
theorem c7_empty_input_witness :
    ((fun _ : Txt => ([] : List Txt)) [] = []) ∧
    (∀ l : List Txt, ∀ x : Txt, x ∈ (fun t : List Txt => t) l → x ∈ l) ∧
    analyze_contract_text (fun _ => []) (fun _ => []) (fun _ => false) (fun t => t) [] =
      { parties := [], dates_found := [], money_values := [],
        obligation_sentences := [], termination_sentences := [],
        top_keywords := [], short_summary := [] } :=
  ⟨rfl, fun _ _ h => h,
   c7_empty_input (fun _ => []) (fun _ => []) (fun _ => false) (fun t => t)
     rfl rfl (fun _ _ h => h)⟩

/-! ### Trimming and deduplication lemmas (for C4) -/

theorem dropWhile_idem (p : Char → Bool) (l : Txt) :
    (l.dropWhile p).dropWhile p = l.dropWhile p := by
  induction l with
  | nil => rfl
  | cons c r ih =>
    cases hc : p c
    · simp [List.dropWhile_cons, hc]
    · simp [List.dropWhile_cons, hc, ih]

theorem stripRight_idem (l : Txt) : stripRight (stripRight l) = stripRight l := by
  induction l with
  | nil => rfl
  | cons c r ih =>
    show stripRight (if stripRight r == [] && isWsChar c then [] else c :: stripRight r) =
         (if stripRight r == [] && isWsChar c then [] else c :: stripRight r)
    cases hb : (stripRight r == [] && isWsChar c)
    · rw [if_neg Bool.false_ne_true]
      show (if stripRight (stripRight r) == [] && isWsChar c then [] else
              c :: stripRight (stripRight r)) =
           c :: stripRight r
      rw [ih, hb, if_neg Bool.false_ne_true]
    · rw [if_pos rfl]
      rfl

theorem dropWhile_stripRight (l : Txt) (h : l.dropWhile isWsChar = l) :
    (stripRight l).dropWhile isWsChar = stripRight l := by
  cases l with
  | nil => rfl
  | cons c r =>
    have hc : isWsChar c = false := by
      cases hc : isWsChar c
      · rfl
      · rw [List.dropWhile_cons, hc, if_pos rfl] at h
        have h3 := congrArg List.length h
        have h4 := (List.dropWhile_sublist (l := r) isWsChar).length_le
        simp only [List.length_cons] at h3
        omega
    simp [stripRight, hc, List.dropWhile_cons]

/-- Python `strip` is idempotent. -/
theorem pyStrip_idem (s : Txt) : pyStrip (pyStrip s) = pyStrip s := by
  unfold pyStrip
  rw [dropWhile_stripRight _ (dropWhile_idem _ _), stripRight_idem]

theorem contains_iff_mem (a : Txt) (l : List Txt) : l.contains a = true ↔ a ∈ l :=
  List.elem_iff

theorem dedupFirstGo_mem (l : List Txt) : ∀ (seen : List Txt) (x : Txt),
    x ∈ dedupFirstGo seen l ↔ x ∈ l ∧ x ∉ seen := by
  induction l with
  | nil => intro seen x; simp [dedupFirstGo]
  | cons y ys ih =>
    intro seen x
    show x ∈ (if seen.contains y then dedupFirstGo seen ys
              else y :: dedupFirstGo (y :: seen) ys) ↔ _
    by_cases hy : y ∈ seen
    · rw [if_pos ((contains_iff_mem y seen).mpr hy), ih]
      constructor
      · rintro ⟨hx, hns⟩
        exact ⟨List.mem_cons_of_mem _ hx, hns⟩
      · rintro ⟨hx, hns⟩
        rcases List.mem_cons.mp hx with rfl | hx2
        · exact absurd hy hns
        · exact ⟨hx2, hns⟩
    · rw [if_neg (fun h => hy ((contains_iff_mem y seen).mp h))]
      simp only [List.mem_cons, ih]
      constructor
      · rintro (rfl | ⟨hx, hns⟩)
        · exact ⟨Or.inl rfl, hy⟩
        · exact ⟨Or.inr hx, fun hc => hns (Or.inr hc)⟩
      · rintro ⟨hxy, hns⟩
        by_cases hxeq : x = y
        · exact Or.inl hxeq
        · rcases hxy with rfl | hx2
          · exact absurd rfl hxeq
          · exact Or.inr ⟨hx2, fun hor => hor.elim hxeq hns⟩

theorem dedupFirstGo_nodup (l : List Txt) : ∀ seen : List Txt,
    (dedupFirstGo seen l).Nodup := by
  induction l with
  | nil => intro seen; exact List.nodup_nil
  | cons y ys ih =>
    intro seen
    show (if seen.contains y then dedupFirstGo seen ys
          else y :: dedupFirstGo (y :: seen) ys).Nodup
    by_cases hy : y ∈ seen
    · rw [if_pos ((contains_iff_mem y seen).mpr hy)]
      exact ih seen
    · rw [if_neg (fun h => hy ((contains_iff_mem y seen).mp h))]
      refine List.Nodup.cons ?_ (ih (y :: seen))
      intro hmem
      exact ((dedupFirstGo_mem ys (y :: seen) y).mp hmem).2 (List.mem_cons_self y seen)

/-- Elements of `dedupFirst l` are elements of `l`, and the result has no
duplicates. -/
theorem dedupFirst_nodup (l : List Txt) : (dedupFirst l).Nodup :=
  dedupFirstGo_nodup l []

theorem dedupFirst_subset (l : List Txt) (x : Txt) (h : x ∈ dedupFirst l) : x ∈ l :=
  ((dedupFirstGo_mem l [] x).mp h).1

/-- A duplicate-free list of trim-fixed strings has pairwise distinct
trims. -/
theorem distinctAfterTrim_of_nodup (l : List Txt) (hn : l.Nodup)
    (hf : ∀ x ∈ l, pyStrip x = x) : DistinctAfterTrim l :=
  List.Pairwise.imp_of_mem
    (fun ha hb hne => by rw [hf _ ha, hf _ hb]; exact hne) hn

theorem uniqStep_nodup (isStop : Txt → Bool) (uniq : List Txt) (c : Txt)
    (hu : uniq.Nodup) : (uniqStep isStop uniq c).Nodup := by
  unfold uniqStep
  split
  next hcond =>
    have h3 := ((Bool.and_eq_true _ _).mp hcond).2
    have hnm : pyStrip c ∉ uniq := by
      intro hm
      rw [(contains_iff_mem (pyStrip c) uniq).mpr hm] at h3
      exact absurd h3 (by decide)
    rw [List.nodup_append]
    refine ⟨hu, List.nodup_singleton _, fun x hx hx2 => ?_⟩
    rw [List.mem_singleton.mp hx2] at hx
    exact hnm hx
  next => exact hu

theorem uniqStep_strip_fixed (isStop : Txt → Bool) (uniq : List Txt) (c : Txt)
    (hu : ∀ x ∈ uniq, pyStrip x = x) :
    ∀ x ∈ uniqStep isStop uniq c, pyStrip x = x := by
  unfold uniqStep
  split
  · intro x hx
    rcases List.mem_append.mp hx with h | h
    · exact hu x h
    · rw [List.mem_singleton.mp h]
      exact pyStrip_idem c
  · exact hu

theorem uniqTake2_nodup (isStop : Txt → Bool) (cands : List Txt) :
    ∀ uniq : List Txt, uniq.Nodup → (uniqTake2 isStop uniq cands).Nodup := by
  induction cands with
  | nil => exact fun _ hu => hu
  | cons c cs ih =>
    intro uniq hu
    unfold uniqTake2
    split
    · exact uniqStep_nodup isStop uniq c hu
    · exact ih _ (uniqStep_nodup isStop uniq c hu)

theorem uniqTake2_strip_fixed (isStop : Txt → Bool) (cands : List Txt) :
    ∀ uniq : List Txt, (∀ x ∈ uniq, pyStrip x = x) →
      ∀ x ∈ uniqTake2 isStop uniq cands, pyStrip x = x := by
  induction cands with
  | nil => exact fun _ hu => hu
  | cons c cs ih =>
    intro uniq hu
    unfold uniqTake2
    split
    · exact uniqStep_strip_fixed isStop uniq c hu
    · exact ih _ (uniqStep_strip_fixed isStop uniq c hu)

theorem extract_dates_pool_strip_fixed (text : Txt) :
    ∀ x ∈ extract_dates_pool text, pyStrip x = x := by
  intro x hx
  have hx2 : x ∈ List.map pyStrip
      ((pyFindall true DATE_PAT text).flatMap
        (fun grp => (splitOnChar '\n' grp).filter (fun m => m ≠ [])) ++
       pyFindall true FALLBACK_ON_PAT text) := hx
  rcases List.mem_map.mp hx2 with ⟨y, _, rfl⟩
  exact pyStrip_idem y

/-- C4 (amended): the dates and money lists are duplicate-free after
trimming for every text, and so is the parties list whenever it comes from
the heading fallback; only the regex path of the party extractor can
duplicate (see the counterexample). -/
theorem c4_dedup_amended (text : Txt) (isStop : Txt → Bool)
    (setList : List Txt → List Txt)
    (hset : ∀ l : List Txt, (setList l).Nodup ∧ ∀ x ∈ setList l, x ∈ l) :
    DistinctAfterTrim (extract_dates setList text) ∧
    DistinctAfterTrim (extract_money text) ∧
    (tryPatterns PARTY_PATTERNS (joinWith [' '] (pySplitWs text)) = [] →
      DistinctAfterTrim (extract_parties isStop text)) := by
  refine ⟨?_, ?_, ?_⟩
  · apply distinctAfterTrim_of_nodup
    · exact (List.take_sublist _ _).nodup (hset _).1
    · intro x hx
      have hx2 : x ∈ setList (extract_dates_pool text) :=
        List.Sublist.mem hx (List.take_sublist _ _)
      exact extract_dates_pool_strip_fixed text x ((hset _).2 x hx2)
  · apply distinctAfterTrim_of_nodup
    · exact (List.take_sublist _ _).nodup (dedupFirst_nodup _)
    · intro x hx
      have hx2 : x ∈ dedupFirst (List.map pyStrip (pyFindall true MONEY_PAT text)) :=
        List.Sublist.mem hx (List.take_sublist _ _)
      rcases List.mem_map.mp (dedupFirst_subset _ x hx2) with ⟨y, _, rfl⟩
      exact pyStrip_idem y
  · intro h
    have he : extract_parties isStop text =
        (uniqTake2 isStop []
          (pyFindall false CAPS_HEAD_PAT
            (joinWith ['\n'] ((pySplitlines text).take 40)))).take 2 := by
      simp only [extract_parties, h]
      rfl
    rw [he]
    apply distinctAfterTrim_of_nodup
    · exact (List.take_sublist _ _).nodup (uniqTake2_nodup isStop _ [] List.nodup_nil)
    · intro x hx
      exact uniqTake2_strip_fixed isStop _ []
        (fun y hy => absurd hy (List.not_mem_nil y)) x
        (List.Sublist.mem hx (List.take_sublist _ _))

/-- Witness for C4 (amended): the set-order capability instantiated with a
first-occurrence dedup, on the scenario text. -/
theorem c4_dedup_amended_witness :
    (∀ l : List Txt, (dedupFirst l).Nodup ∧ ∀ x ∈ dedupFirst l, x ∈ l) ∧
    (DistinctAfterTrim (extract_dates (fun t => dedupFirst t) scenarioText) ∧
     DistinctAfterTrim (extract_money scenarioText) ∧
     (tryPatterns PARTY_PATTERNS (joinWith [' '] (pySplitWs scenarioText)) = [] →
       DistinctAfterTrim (extract_parties (fun _ => false) scenarioText))) :=
  ⟨fun l => ⟨dedupFirst_nodup l, fun x hx => dedupFirst_subset l x hx⟩,
   c4_dedup_amended scenarioText (fun _ => false) (fun t => dedupFirst t)
     (fun l => ⟨dedupFirst_nodup l, fun x hx => dedupFirst_subset l x hx⟩)⟩

/-! ### Substring and trimming interaction (for C9) -/

theorem headMatch_decomp (pat : Txt) : ∀ r : Txt, headMatch pat r = true →
    ∃ r2, r = pat ++ r2 := by
  induction pat with
  | nil => exact fun r _ => ⟨r, rfl⟩
  | cons a as ih =>
    intro r h
    cases r with
    | nil => exact absurd h (by simp [headMatch])
    | cons b bs =>
      have h' : (a == b && headMatch as bs) = true := h
      rcases (Bool.and_eq_true _ _).mp h' with ⟨h1, h2⟩
      rcases ih bs h2 with ⟨r2, rfl⟩
      exact ⟨r2, by rw [eq_of_beq h1]; rfl⟩

theorem isSub_decomp (pat : Txt) : ∀ l : Txt, isSub pat l = true →
    ∃ a b, l = a ++ pat ++ b := by
  intro l
  induction l with
  | nil =>
    intro h
    have h' : (pat == ([] : Txt)) = true := h
    exact ⟨[], [], by rw [eq_of_beq h']; rfl⟩
  | cons c rest ih =>
    intro h
    have h' : (headMatch pat (c :: rest) || isSub pat rest) = true := h
    rcases (Bool.or_eq_true _ _).mp h' with hm | hs
    · rcases headMatch_decomp pat _ hm with ⟨r2, he⟩
      exact ⟨[], r2, by rw [he]; rfl⟩
    · rcases ih hs with ⟨a, b, he⟩
      exact ⟨c :: a, b, by rw [he]; rfl⟩

theorem lastOfCons_mem : ∀ (kt : Txt) (k : Char), lastOfCons k kt ∈ k :: kt := by
  intro kt
  induction kt with
  | nil => intro k; exact List.mem_cons_self _ _
  | cons k2 kt2 ih =>
    intro k
    show lastOfCons k2 kt2 ∈ k :: k2 :: kt2
    exact List.mem_cons_of_mem _ (ih k2)

theorem stripRight_eq_nil_iff : ∀ l : Txt,
    stripRight l = [] ↔ ∀ c ∈ l, isWsChar c = true := by
  intro l
  induction l with
  | nil => simp [stripRight]
  | cons c r ih =>
    show (if stripRight r == [] && isWsChar c then [] else c :: stripRight r) = [] ↔ _
    cases hb : (stripRight r == [] && isWsChar c)
    · rw [if_neg Bool.false_ne_true]
      constructor
      · intro h; exact absurd h (List.cons_ne_nil _ _)
      · intro hall
        have h1 : isWsChar c = true := hall c (List.mem_cons_self c r)
        have h2 : stripRight r = [] := ih.mpr (fun d hd => hall d (List.mem_cons_of_mem c hd))
        rw [h2, h1] at hb
        simp at hb
    · rw [if_pos rfl]
      constructor
      · intro _
        rcases (Bool.and_eq_true _ _).mp hb with ⟨hq, hwc⟩
        intro d hd
        rcases List.mem_cons.mp hd with rfl | hd2
        · exact hwc
        · exact ih.mp (eq_of_beq hq) d hd2
      · intro _; rfl

theorem isSub_dropWhile (k : Char) (kt : Txt) (hk : isWsChar k = false) :
    ∀ r : Txt, isSub (k :: kt) r = true →
      isSub (k :: kt) (r.dropWhile isWsChar) = true := by
  intro r
  induction r with
  | nil => intro h; simpa using h
  | cons c r' ih =>
    intro h
    have h' : (headMatch (k :: kt) (c :: r') || isSub (k :: kt) r') = true := h
    rw [List.dropWhile_cons]
    cases hc : isWsChar c
    · rw [if_neg Bool.false_ne_true]
      exact h
    · rw [if_pos rfl]
      rcases (Bool.or_eq_true _ _).mp h' with hm | hs
      · exfalso
        have hm' : (k == c && headMatch kt r') = true := hm
        have h2 := ((Bool.and_eq_true _ _).mp hm').1
        rw [eq_of_beq h2, hc] at hk
        exact absurd hk (by decide)
      · exact ih hs

theorem headMatch_stripRight : ∀ (kt : Txt) (k : Char),
    isWsChar (lastOfCons k kt) = false →
    ∀ r : Txt, headMatch (k :: kt) r = true →
      headMatch (k :: kt) (stripRight r) = true := by
  intro kt
  induction kt with
  | nil =>
    intro k hlast r h
    cases r with
    | nil => simp [headMatch] at h
    | cons b bs =>
      have h' : (k == b && headMatch [] bs) = true := h
      have h1 := ((Bool.and_eq_true _ _).mp h').1
      have hwb : isWsChar b = false := by rw [← eq_of_beq h1]; exact hlast
      show headMatch [k]
          (if stripRight bs == [] && isWsChar b then [] else b :: stripRight bs) = true
      rw [hwb, Bool.and_false, if_neg Bool.false_ne_true]
      show (k == b && headMatch [] (stripRight bs)) = true
      rw [Bool.and_eq_true]
      exact ⟨h1, rfl⟩
  | cons k2 kt2 ih =>
    intro k hlast r h
    cases r with
    | nil => simp [headMatch] at h
    | cons b bs =>
      have h' : (k == b && headMatch (k2 :: kt2) bs) = true := h
      rcases (Bool.and_eq_true _ _).mp h' with ⟨h1, h2⟩
      have hlast2 : isWsChar (lastOfCons k2 kt2) = false := hlast
      rcases headMatch_decomp (k2 :: kt2) bs h2 with ⟨r2, rfl⟩
      have hmem : lastOfCons k2 kt2 ∈ (k2 :: kt2) ++ r2 :=
        List.mem_append_left _ (lastOfCons_mem kt2 k2)
      have hsne : stripRight ((k2 :: kt2) ++ r2) ≠ [] := by
        intro hnil
        have hws := (stripRight_eq_nil_iff _).mp hnil _ hmem
        rw [hlast2] at hws
        exact absurd hws (by decide)
      have hbeq : (stripRight ((k2 :: kt2) ++ r2) == ([] : Txt)) = false := by
        cases hq : (stripRight ((k2 :: kt2) ++ r2) == ([] : Txt))
        · rfl
        · exact absurd (eq_of_beq hq) hsne
      show headMatch (k :: k2 :: kt2)
          (if stripRight ((k2 :: kt2) ++ r2) == [] && isWsChar b then []
           else b :: stripRight ((k2 :: kt2) ++ r2)) = true
      rw [hbeq, Bool.false_and, if_neg Bool.false_ne_true]
      show (k == b && headMatch (k2 :: kt2) (stripRight ((k2 :: kt2) ++ r2))) = true
      rw [Bool.and_eq_true]
      exact ⟨h1, ih k2 hlast2 _ h2⟩

theorem isSub_stripRight (k : Char) (kt : Txt)
    (hlast : isWsChar (lastOfCons k kt) = false) :
    ∀ r : Txt, isSub (k :: kt) r = true →
      isSub (k :: kt) (stripRight r) = true := by
  intro r
  induction r with
  | nil => intro h; simpa using h
  | cons c r' ih =>
    intro h
    have h' : (headMatch (k :: kt) (c :: r') || isSub (k :: kt) r') = true := h
    show isSub (k :: kt)
        (if stripRight r' == [] && isWsChar c then [] else c :: stripRight r') = true
    cases hb : (stripRight r' == [] && isWsChar c)
    · rw [if_neg Bool.false_ne_true]
      show (headMatch (k :: kt) (c :: stripRight r') ||
            isSub (k :: kt) (stripRight r')) = true
      rcases (Bool.or_eq_true _ _).mp h' with hm | hs
      · have hsm := headMatch_stripRight kt k hlast (c :: r') hm
        have hse : stripRight (c :: r') = c :: stripRight r' := by
          show (if stripRight r' == [] && isWsChar c then [] else c :: stripRight r') = _
          rw [hb, if_neg Bool.false_ne_true]
        rw [hse] at hsm
        rw [Bool.or_eq_true]
        exact Or.inl hsm
      · rw [Bool.or_eq_true]
        exact Or.inr (ih hs)
    · exfalso
      rcases (Bool.and_eq_true _ _).mp hb with ⟨hq, hwc⟩
      have hall : ∀ d ∈ c :: r', isWsChar d = true := by
        intro d hd
        rcases List.mem_cons.mp hd with rfl | hd2
        · exact hwc
        · exact (stripRight_eq_nil_iff r').mp (eq_of_beq hq) d hd2
      rcases isSub_decomp (k :: kt) (c :: r') h with ⟨a, b2, heq⟩
      have hmem : lastOfCons k kt ∈ c :: r' := by
        rw [heq]
        have hm0 := lastOfCons_mem kt k
        simp only [List.mem_append]
        exact Or.inl (Or.inr hm0)
      have hws := hall _ hmem
      rw [hlast] at hws
      exact absurd hws (by decide)

/-- A substring hit by an edge-clean keyword survives Python `strip`. -/
theorem isSub_pyStrip (kw : Txt) (hedge : kwEdgesOk kw = true) (l : Txt)
    (h : isSub kw l = true) : isSub kw (pyStrip l) = true := by
  cases kw with
  | nil => exact absurd hedge (by simp [kwEdgesOk])
  | cons k kt =>
    have h2 : (!isWsChar k && !isWsChar (lastOfCons k kt)) = true := hedge
    rcases (Bool.and_eq_true _ _).mp h2 with ⟨hk, hlast⟩
    have hk' : isWsChar k = false := by
      cases hq : isWsChar k
      · rfl
      · rw [hq] at hk; exact absurd hk (by decide)
    have hlast' : isWsChar (lastOfCons k kt) = false := by
      cases hq : isWsChar (lastOfCons k kt)
      · rfl
      · rw [hq] at hlast; exact absurd hlast (by decide)
    unfold pyStrip
    exact isSub_stripRight k kt hlast' _ (isSub_dropWhile k kt hk' l h)

/-! ### Lowercasing commutes with trimming (for C9) -/

theorem isWs_lowerChar (c : Char) : isWsChar (lowerChar c) = isWsChar c := by
  have hf : ∀ n : Nat, 65 ≤ n → n ≤ 122 →
      (n == 32 || n == 9 || n == 10 || n == 13 || n == 11 || n == 12) = false := by
    intro n hn1 hn2
    simp only [Bool.or_eq_false_iff, beq_eq_false_iff_ne, ne_eq]
    omega
  unfold lowerChar
  split
  next h =>
    rcases (Bool.and_eq_true _ _).mp h with ⟨h1, h2⟩
    have h1' : 65 ≤ c.toNat := of_decide_eq_true h1
    have h2' : c.toNat ≤ 90 := of_decide_eq_true h2
    have hofNat : (Char.ofNat (c.toNat + 32)).toNat = c.toNat + 32 := by
      unfold Char.ofNat
      rw [dif_pos (show Nat.isValidChar (c.toNat + 32) by left; omega)]
      rfl
    show isWsChar _ = isWsChar c
    unfold isWsChar
    rw [hofNat, hf _ (by omega) (by omega), hf _ (by omega) (by omega)]
  next => rfl

theorem beq_nil_map (f : Char → Char) (X : Txt) :
    (List.map f X == ([] : Txt)) = (X == ([] : Txt)) := by
  cases X
  · rfl
  · rfl

theorem dropWhile_lowerTxt (s : Txt) :
    (lowerTxt s).dropWhile isWsChar = lowerTxt (s.dropWhile isWsChar) := by
  induction s with
  | nil => rfl
  | cons c r ih =>
    show (lowerChar c :: lowerTxt r).dropWhile isWsChar = _
    rw [List.dropWhile_cons, List.dropWhile_cons, isWs_lowerChar]
    cases hc : isWsChar c
    · rw [if_neg Bool.false_ne_true, if_neg Bool.false_ne_true]
      rfl
    · rw [if_pos rfl, if_pos rfl]
      exact ih

theorem stripRight_lowerTxt (s : Txt) :
    stripRight (lowerTxt s) = lowerTxt (stripRight s) := by
  induction s with
  | nil => rfl
  | cons c r ih =>
    show (if stripRight (lowerTxt r) == [] && isWsChar (lowerChar c) then []
          else lowerChar c :: stripRight (lowerTxt r)) =
         lowerTxt (if stripRight r == [] && isWsChar c then [] else c :: stripRight r)
    rw [ih, isWs_lowerChar,
        show (lowerTxt (stripRight r) == ([] : Txt)) = (stripRight r == ([] : Txt)) from
          beq_nil_map lowerChar _]
    cases hb : (stripRight r == ([] : Txt) && isWsChar c)
    · rw [if_neg Bool.false_ne_true, if_neg Bool.false_ne_true]
      rfl
    · rw [if_pos rfl, if_pos rfl]
      rfl

/-- Python `strip` and `lower` commute. -/
theorem pyStrip_lowerTxt (s : Txt) : pyStrip (lowerTxt s) = lowerTxt (pyStrip s) := by
  unfold pyStrip
  rw [dropWhile_lowerTxt, stripRight_lowerTxt]

/-! ### The sentence extractors (for C9) -/

theorem findSents_mem (kws : List Txt) : ∀ (sents : List Txt) (x : Txt),
    x ∈ findSents kws sents →
    ∃ s ∈ sents, sentenceHasKw kws (lowerTxt s) = true ∧ x = pyStrip s := by
  intro sents
  induction sents with
  | nil => intro x hx; exact absurd hx (List.not_mem_nil x)
  | cons s rest ih =>
    intro x hx
    show ∃ t ∈ s :: rest, _
    by_cases hq : sentenceHasKw kws (lowerTxt s) = true
    · rw [show findSents kws (s :: rest) =
            pyStrip s :: findSents kws rest from by
              show (if sentenceHasKw kws (lowerTxt s) = true then
                      pyStrip s :: findSents kws rest
                    else findSents kws rest) = _
              rw [if_pos hq]] at hx
      rcases List.mem_cons.mp hx with rfl | hx2
      · exact ⟨s, List.mem_cons_self _ _, hq, rfl⟩
      · rcases ih x hx2 with ⟨t, ht, hkw, he⟩
        exact ⟨t, List.mem_cons_of_mem _ ht, hkw, he⟩
    · rw [show findSents kws (s :: rest) = findSents kws rest from by
            show (if sentenceHasKw kws (lowerTxt s) = true then
                    pyStrip s :: findSents kws rest
                  else findSents kws rest) = _
            rw [if_neg hq]] at hx
      rcases ih x hx with ⟨t, ht, hkw, he⟩
      exact ⟨t, List.mem_cons_of_mem _ ht, hkw, he⟩

theorem findSents_count (kws : List Txt) : ∀ (sents : List Txt) (x : Txt),
    (findSents kws sents).count x ≤ (sents.map pyStrip).count x := by
  intro sents
  induction sents with
  | nil => intro x; exact Nat.le_refl _
  | cons s rest ih =>
    intro x
    show (findSents kws (s :: rest)).count x ≤ (pyStrip s :: rest.map pyStrip).count x
    rw [List.count_cons]
    by_cases hq : sentenceHasKw kws (lowerTxt s) = true
    · rw [show findSents kws (s :: rest) =
            pyStrip s :: findSents kws rest from by
              show (if sentenceHasKw kws (lowerTxt s) = true then
                      pyStrip s :: findSents kws rest
                    else findSents kws rest) = _
              rw [if_pos hq]]
      rw [List.count_cons]
      exact Nat.add_le_add (ih x) (Nat.le_refl _)
    · rw [show findSents kws (s :: rest) = findSents kws rest from by
            show (if sentenceHasKw kws (lowerTxt s) = true then
                    pyStrip s :: findSents kws rest
                  else findSents kws rest) = _
            rw [if_neg hq]]
      exact Nat.le_trans (ih x) (Nat.le_add_right _ _)

/-- C9: every returned obligation sentence contains an obligation keyword
as a case-insensitive substring and every returned termination sentence a
termination keyword; and a sentence enters each list at most once however
many keywords of that list match it — its multiplicity in the returned
list never exceeds its multiplicity in the trimmed sentence stream. -/
theorem c9_sentence_keywords (sentTok wordTok : Txt → List Txt) (isStop : Txt → Bool)
    (setList : List Txt → List Txt) (text : Txt) :
    ((analyze_contract_text sentTok wordTok isStop setList text).obligation_sentences.all
        (fun x => OBL_KEYWORDS.any (fun kw => isSub kw (lowerTxt x))) = true) ∧
    ((analyze_contract_text sentTok wordTok isStop setList text).termination_sentences.all
        (fun x => TERMINATION_KEYWORDS.any (fun kw => isSub kw (lowerTxt x))) = true) ∧
    (∀ x : Txt,
      (analyze_contract_text sentTok wordTok isStop setList text).obligation_sentences.count x
        ≤ ((sentTok text).map pyStrip).count x) ∧
    (∀ x : Txt,
      (analyze_contract_text sentTok wordTok isStop setList text).termination_sentences.count x
        ≤ ((sentTok text).map pyStrip).count x) := by
  have hOBL : OBL_KEYWORDS.all kwEdgesOk = true := by decide
  have hTERM : TERMINATION_KEYWORDS.all kwEdgesOk = true := by decide
  have main : ∀ kws : List Txt, kws.all kwEdgesOk = true →
      ∀ x ∈ findSents kws (sentTok text),
        kws.any (fun kw => isSub kw (lowerTxt x)) = true := by
    intro kws hedge x hx
    rcases findSents_mem kws (sentTok text) x hx with ⟨s, _, hkw, rfl⟩
    have hkw' : kws.any (fun kw => isSub kw (lowerTxt s)) = true := hkw
    rcases List.any_eq_true.mp hkw' with ⟨kw, hkwmem, hsub⟩
    refine List.any_eq_true.mpr ⟨kw, hkwmem, ?_⟩
    rw [← pyStrip_lowerTxt]
    exact isSub_pyStrip kw (List.all_eq_true.mp hedge kw hkwmem) _ hsub
  refine ⟨?_, ?_, ?_, ?_⟩
  · apply List.all_eq_true.mpr
    intro x hx
    have hx2 : x ∈ (findSents OBL_KEYWORDS (sentTok text)).take 10 := hx
    exact main OBL_KEYWORDS hOBL x (List.Sublist.mem hx2 (List.take_sublist _ _))
  · apply List.all_eq_true.mpr
    intro x hx
    have hx2 : x ∈ (findSents TERMINATION_KEYWORDS (sentTok text)).take 8 := hx
    exact main TERMINATION_KEYWORDS hTERM x (List.Sublist.mem hx2 (List.take_sublist _ _))
  · intro x
    have h1 : ((findSents OBL_KEYWORDS (sentTok text)).take 10).count x ≤
        (findSents OBL_KEYWORDS (sentTok text)).count x :=
      (List.take_sublist _ _).count_le x
    exact Nat.le_trans h1 (findSents_count OBL_KEYWORDS (sentTok text) x)
  · intro x
    have h1 : ((findSents TERMINATION_KEYWORDS (sentTok text)).take 8).count x ≤
        (findSents TERMINATION_KEYWORDS (sentTok text)).count x :=
      (List.take_sublist _ _).count_le x
    exact Nat.le_trans h1 (findSents_count TERMINATION_KEYWORDS (sentTok text) x)

/-! ### Stable-sort machinery (for C8) -/

theorem insertDesc_mem (key : Txt → Nat) (x : Txt) : ∀ (l : List Txt) (y : Txt),
    y ∈ insertDesc key x l ↔ y = x ∨ y ∈ l := by
  intro l
  induction l with
  | nil => intro y; simp [insertDesc]
  | cons z zs ih =>
    intro y
    show y ∈ (if key x < key z then z :: insertDesc key x zs else x :: z :: zs) ↔ _
    by_cases hlt : key x < key z
    · rw [if_pos hlt]
      simp only [List.mem_cons, ih]
      tauto
    · rw [if_neg hlt]
      simp only [List.mem_cons]

theorem stableSortDesc_mem (key : Txt → Nat) : ∀ (l : List Txt) (y : Txt),
    y ∈ stableSortDesc key l ↔ y ∈ l := by
  intro l
  induction l with
  | nil => intro y; exact Iff.rfl
  | cons x xs ih =>
    intro y
    show y ∈ insertDesc key x (stableSortDesc key xs) ↔ _
    rw [insertDesc_mem, ih]
    simp [List.mem_cons]

theorem insertDesc_pairwise (key : Txt → Nat) (x : Txt) : ∀ l : List Txt,
    l.Pairwise (fun a b => key b ≤ key a) →
    (insertDesc key x l).Pairwise (fun a b => key b ≤ key a) := by
  intro l
  induction l with
  | nil => intro _; exact List.pairwise_singleton _ _
  | cons z zs ih =>
    intro h
    rcases List.pairwise_cons.mp h with ⟨hz, hzs⟩
    show (if key x < key z then z :: insertDesc key x zs else x :: z :: zs).Pairwise _
    by_cases hlt : key x < key z
    · rw [if_pos hlt]
      refine List.pairwise_cons.mpr ⟨?_, ih hzs⟩
      intro b hb
      rcases (insertDesc_mem key x zs b).mp hb with rfl | hb2
      · exact Nat.le_of_lt hlt
      · exact hz b hb2
    · rw [if_neg hlt]
      refine List.pairwise_cons.mpr ⟨?_, h⟩
      intro b hb
      rcases List.mem_cons.mp hb with rfl | hb2
      · exact Nat.le_of_not_lt hlt
      · exact Nat.le_trans (hz b hb2) (Nat.le_of_not_lt hlt)

theorem stableSortDesc_pairwise (key : Txt → Nat) : ∀ l : List Txt,
    (stableSortDesc key l).Pairwise (fun a b => key b ≤ key a) := by
  intro l
  induction l with
  | nil => exact List.Pairwise.nil
  | cons x xs ih => exact insertDesc_pairwise key x _ ih

theorem insertDesc_filter_eq (key : Txt → Nat) (c : Nat) (x : Txt) (hx : key x = c) :
    ∀ l : List Txt,
      (insertDesc key x l).filter (fun y => key y == c) =
        x :: l.filter (fun y => key y == c) := by
  intro l
  induction l with
  | nil =>
    show [x].filter (fun y => key y == c) = [x]
    rw [List.filter_cons, if_pos (by simp [hx])]
    rfl
  | cons z zs ih =>
    show (if key x < key z then z :: insertDesc key x zs else x :: z :: zs).filter _ = _
    by_cases hlt : key x < key z
    · rw [if_pos hlt, List.filter_cons,
          if_neg (by simp only [beq_iff_eq]; omega), ih, List.filter_cons,
          if_neg (by simp only [beq_iff_eq]; omega)]
    · rw [if_neg hlt, List.filter_cons, if_pos (by simp [hx])]

theorem insertDesc_filter_ne (key : Txt → Nat) (c : Nat) (x : Txt) (hx : key x ≠ c) :
    ∀ l : List Txt,
      (insertDesc key x l).filter (fun y => key y == c) =
        l.filter (fun y => key y == c) := by
  intro l
  induction l with
  | nil =>
    show [x].filter (fun y => key y == c) = []
    rw [List.filter_cons, if_neg (by simp [hx])]
    rfl
  | cons z zs ih =>
    show (if key x < key z then z :: insertDesc key x zs else x :: z :: zs).filter _ = _
    by_cases hlt : key x < key z
    · rw [if_pos hlt, List.filter_cons, List.filter_cons]
      cases hzc : (key z == c)
      · rw [if_neg Bool.false_ne_true, if_neg Bool.false_ne_true]
        exact ih
      · rw [if_pos rfl, if_pos rfl, ih]
    · rw [if_neg hlt, List.filter_cons, if_neg (by simp [hx])]

/-- The stable descending sort leaves the relative order of equal-key
elements unchanged: the equal-key fibre of the output is the equal-key
fibre of the input. -/
theorem stableSortDesc_filter (key : Txt → Nat) (c : Nat) : ∀ l : List Txt,
    (stableSortDesc key l).filter (fun y => key y == c) =
      l.filter (fun y => key y == c) := by
  intro l
  induction l with
  | nil => rfl
  | cons x xs ih =>
    show (insertDesc key x (stableSortDesc key xs)).filter _ = _
    by_cases hx : key x = c
    · rw [insertDesc_filter_eq key c x hx, ih, List.filter_cons, if_pos (by simp [hx])]
    · rw [insertDesc_filter_ne key c x hx, ih, List.filter_cons, if_neg (by simp [hx])]

theorem sublist_pair_filter (p : Txt → Bool) : ∀ (l : List Txt) (u v : Txt),
    [u, v].Sublist l → p u = true → p v = true → [u, v].Sublist (l.filter p) := by
  intro l
  induction l with
  | nil => intro u v h _ _; exact absurd h (by simp)
  | cons x l' ih =>
    intro u v h hu hv
    cases h with
    | cons _ h2 =>
      rw [List.filter_cons]
      cases hpx : p x
      · rw [if_neg Bool.false_ne_true]
        exact ih u v h2 hu hv
      · rw [if_pos rfl]
        exact List.Sublist.cons x (ih u v h2 hu hv)
    | cons₂ _ h2 =>
      rw [List.filter_cons, if_pos hu]
      refine List.Sublist.cons₂ _ (List.singleton_sublist.mpr ?_)
      exact List.mem_filter.mpr ⟨List.singleton_sublist.mp h2, hv⟩

theorem pair_sublist_or : ∀ (l : List Txt) (u v : Txt), u ∈ l → v ∈ l → u ≠ v →
    [u, v].Sublist l ∨ [v, u].Sublist l := by
  intro l
  induction l with
  | nil => intro u v hu _ _; exact absurd hu (List.not_mem_nil u)
  | cons x l' ih =>
    intro u v hu hv hne
    rcases List.mem_cons.mp hu with rfl | hu2
    · have hv2 : v ∈ l' := by
        rcases List.mem_cons.mp hv with rfl | h
        · exact absurd rfl hne
        · exact h
      exact Or.inl (List.Sublist.cons₂ _ (List.singleton_sublist.mpr hv2))
    · rcases List.mem_cons.mp hv with rfl | hv2
      · exact Or.inr (List.Sublist.cons₂ _ (List.singleton_sublist.mpr hu2))
      · rcases ih u v hu2 hv2 hne with h | h
        · exact Or.inl (List.Sublist.cons x h)
        · exact Or.inr (List.Sublist.cons x h)

/-- In the insertion-ordered key list built over `seen`, two distinct
unseen elements appear in the order of their first occurrences. -/
theorem dedupFirstGo_pair_iff : ∀ (w : List Txt) (seen : List Txt) (u v : Txt),
    u ≠ v → u ∈ w → v ∈ w → u ∉ seen → v ∉ seen →
    ([u, v].Sublist (dedupFirstGo seen w) ↔ w.indexOf u < w.indexOf v) := by
  intro w
  induction w with
  | nil => intro seen u v _ hu _ _ _; exact absurd hu (List.not_mem_nil u)
  | cons x xs ih =>
    intro seen u v hne hu hv hus hvs
    show ([u, v].Sublist (if seen.contains x then dedupFirstGo seen xs
                          else x :: dedupFirstGo (x :: seen) xs)) ↔ _
    by_cases hxs : x ∈ seen
    · have hux : u ≠ x := fun he => hus (he ▸ hxs)
      have hvx : v ≠ x := fun he => hvs (he ▸ hxs)
      rw [if_pos ((contains_iff_mem x seen).mpr hxs)]
      have hu2 : u ∈ xs := by
        rcases List.mem_cons.mp hu with rfl | h
        · exact absurd rfl hux
        · exact h
      have hv2 : v ∈ xs := by
        rcases List.mem_cons.mp hv with rfl | h
        · exact absurd rfl hvx
        · exact h
      rw [ih seen u v hne hu2 hv2 hus hvs, List.indexOf_cons, List.indexOf_cons,
          beq_eq_false_iff_ne.mpr (Ne.symm hux), beq_eq_false_iff_ne.mpr (Ne.symm hvx)]
      simp only [Bool.cond_false]
      omega
    · rw [if_neg (fun h => hxs ((contains_iff_mem x seen).mp h))]
      by_cases hux : u = x
      · subst hux
        constructor
        · intro _
          rw [List.indexOf_cons, List.indexOf_cons, beq_self_eq_true,
              beq_eq_false_iff_ne.mpr hne]
          simp only [Bool.cond_true, Bool.cond_false]
          omega
        · intro _
          refine List.Sublist.cons₂ _ (List.singleton_sublist.mpr ?_)
          apply (dedupFirstGo_mem xs (u :: seen) v).mpr
          refine ⟨?_, ?_⟩
          · rcases List.mem_cons.mp hv with rfl | h
            · exact absurd rfl hne
            · exact h
          · simp only [List.mem_cons, not_or]
            exact ⟨fun he => hne he.symm, hvs⟩
      · by_cases hvx : v = x
        · subst hvx
          constructor
          · intro hsub
            exfalso
            cases hsub with
            | cons _ h2 =>
              have hvD : v ∈ dedupFirstGo (v :: seen) xs :=
                List.Sublist.mem (by simp) h2
              exact ((dedupFirstGo_mem xs (v :: seen) v).mp hvD).2
                (List.mem_cons_self v seen)
            | cons₂ _ h2 => exact hne rfl
          · intro hidx
            rw [List.indexOf_cons, List.indexOf_cons, beq_self_eq_true,
                beq_eq_false_iff_ne.mpr (fun he => hne he.symm)] at hidx
            simp only [Bool.cond_true, Bool.cond_false] at hidx
            omega
        · have hu2 : u ∈ xs := by
            rcases List.mem_cons.mp hu with rfl | h
            · exact absurd rfl hux
            · exact h
          have hv2 : v ∈ xs := by
            rcases List.mem_cons.mp hv with rfl | h
            · exact absurd rfl hvx
            · exact h
          have hus2 : u ∉ x :: seen := by
            simp only [List.mem_cons, not_or]
            exact ⟨hux, hus⟩
          have hvs2 : v ∉ x :: seen := by
            simp only [List.mem_cons, not_or]
            exact ⟨hvx, hvs⟩
          have hL : ([u, v].Sublist (x :: dedupFirstGo (x :: seen) xs)) ↔
              [u, v].Sublist (dedupFirstGo (x :: seen) xs) := by
            constructor
            · intro hsub
              cases hsub with
              | cons _ h2 => exact h2
              | cons₂ _ h2 => exact absurd rfl hux
            · intro h2
              exact List.Sublist.cons x h2
          rw [hL, ih (x :: seen) u v hne hu2 hv2 hus2 hvs2, List.indexOf_cons,
              List.indexOf_cons, beq_eq_false_iff_ne.mpr (Ne.symm hux),
              beq_eq_false_iff_ne.mpr (Ne.symm hvx)]
          simp only [Bool.cond_false]
          omega

/-- The forward half of the tie-break property: if `u` precedes `v` in the
most-common list and their counts are equal, `u` first occurs earlier in
the word stream. -/
theorem mostCommonKeys_pair_mp (words : List Txt) (n : Nat) (u v : Txt) (hne : u ≠ v)
    (hcnt : words.count u = words.count v)
    (h : [u, v].Sublist (mostCommonKeys words n)) :
    words.indexOf u < words.indexOf v := by
  have h1 : [u, v].Sublist
      (stableSortDesc (fun w => words.count w) (dedupFirst words)) :=
    List.Sublist.trans h (List.take_sublist _ _)
  have hpu : (words.count u == words.count u) = true := by simp
  have hpv : (words.count v == words.count u) = true := by simp [hcnt]
  have h2 := sublist_pair_filter (fun y => words.count y == words.count u) _ u v h1 hpu hpv
  rw [stableSortDesc_filter] at h2
  have h3 : [u, v].Sublist (dedupFirst words) :=
    List.Sublist.trans h2 (List.filter_sublist _)
  have hu_w : u ∈ words :=
    dedupFirst_subset words u (List.Sublist.mem (by simp) h3)
  have hv_w : v ∈ words :=
    dedupFirst_subset words v (List.Sublist.mem (by simp) h3)
  exact (dedupFirstGo_pair_iff words [] u v hne hu_w hv_w
    (List.not_mem_nil u) (List.not_mem_nil v)).mp h3

/-- C8: among the returned top keywords, two distinct words with equal
frequency appear in the order of their first occurrence in the token
stream, and the whole list is ranked by descending frequency. -/
theorem c8_tie_break (sentTok wordTok : Txt → List Txt) (isStop : Txt → Bool)
    (setList : List Txt → List Txt) (text : Txt) (u v : Txt) (hne : u ≠ v)
    (hcnt : (keywordWords wordTok isStop text).count u =
            (keywordWords wordTok isStop text).count v)
    (hu : u ∈ (analyze_contract_text sentTok wordTok isStop setList text).top_keywords)
    (hv : v ∈ (analyze_contract_text sentTok wordTok isStop setList text).top_keywords) :
    ([u, v].Sublist
        (analyze_contract_text sentTok wordTok isStop setList text).top_keywords ↔
      (keywordWords wordTok isStop text).indexOf u <
        (keywordWords wordTok isStop text).indexOf v) ∧
    (analyze_contract_text sentTok wordTok isStop setList text).top_keywords.Pairwise
      (fun a b => (keywordWords wordTok isStop text).count b ≤
                  (keywordWords wordTok isStop text).count a) := by
  constructor
  · constructor
    · exact mostCommonKeys_pair_mp _ 12 u v hne hcnt
    · intro hidx
      have hu' : u ∈ mostCommonKeys (keywordWords wordTok isStop text) 12 := hu
      have hv' : v ∈ mostCommonKeys (keywordWords wordTok isStop text) 12 := hv
      rcases pair_sublist_or _ u v hu' hv' hne with hp | hp
      · exact hp
      · exfalso
        have hlt := mostCommonKeys_pair_mp _ 12 v u (Ne.symm hne) hcnt.symm hp
        omega
  · exact List.Pairwise.sublist (List.take_sublist _ _) (stableSortDesc_pairwise _ _)

/-- Witness for C8 on a controlled tie: in "b a b a c" both `b` and `a`
occur twice and `b` first. -/
theorem c8_tie_break_witness :
    ((("b").data : Txt) ≠ ("a").data) ∧
    ((keywordWords pySplitWs (fun _ => false) tieText).count (("b").data) =
     (keywordWords pySplitWs (fun _ => false) tieText).count (("a").data)) ∧
    (("b").data ∈ (analyze_contract_text (fun _ => []) pySplitWs (fun _ => false)
        (fun t => t) tieText).top_keywords) ∧
    (("a").data ∈ (analyze_contract_text (fun _ => []) pySplitWs (fun _ => false)
        (fun t => t) tieText).top_keywords) ∧
    (([("b").data, ("a").data].Sublist
        (analyze_contract_text (fun _ => []) pySplitWs (fun _ => false)
          (fun t => t) tieText).top_keywords ↔
      (keywordWords pySplitWs (fun _ => false) tieText).indexOf (("b").data) <
        (keywordWords pySplitWs (fun _ => false) tieText).indexOf (("a").data)) ∧
     (analyze_contract_text (fun _ => []) pySplitWs (fun _ => false)
        (fun t => t) tieText).top_keywords.Pairwise
       (fun a b => (keywordWords pySplitWs (fun _ => false) tieText).count b ≤
                   (keywordWords pySplitWs (fun _ => false) tieText).count a)) :=
  ⟨by decide, by decide, by decide, by decide,
   c8_tie_break (fun _ => []) pySplitWs (fun _ => false) (fun t => t) tieText
     (("b").data) (("a").data) (by decide) (by decide) (by decide) (by decide)⟩

/-- Witness for C1 (amended) at a concrete stopword capability. -/
theorem c1_parties_on_scenario_witness :
    extract_parties (fun _ => false) scenarioText =
      [("Acme Corp").data, ("Beta").data] :=
  c1_parties_on_scenario (fun _ => false)

/-- Witness for C6 at concrete capabilities and the scenario text. -/
theorem c6_result_caps_witness :
    (analyze_contract_text (fun t => [t]) pySplitWs (fun _ => false)
        (fun t => t) scenarioText).parties.length ≤ 2 ∧
    (analyze_contract_text (fun t => [t]) pySplitWs (fun _ => false)
        (fun t => t) scenarioText).dates_found.length ≤ 10 ∧
    (analyze_contract_text (fun t => [t]) pySplitWs (fun _ => false)
        (fun t => t) scenarioText).money_values.length ≤ 10 ∧
    (analyze_contract_text (fun t => [t]) pySplitWs (fun _ => false)
        (fun t => t) scenarioText).obligation_sentences.length ≤ 10 ∧
    (analyze_contract_text (fun t => [t]) pySplitWs (fun _ => false)
        (fun t => t) scenarioText).termination_sentences.length ≤ 8 ∧
    (analyze_contract_text (fun t => [t]) pySplitWs (fun _ => false)
        (fun t => t) scenarioText).top_keywords.length ≤ 12 :=
  c6_result_caps (fun t => [t]) pySplitWs (fun _ => false) (fun t => t) scenarioText

/-- Witness for C9 at concrete capabilities, the scenario text, and a
concrete sentence for the multiplicity bounds. -/
theorem c9_sentence_keywords_witness :
    ((analyze_contract_text (fun t => [t]) pySplitWs (fun _ => false)
        (fun t => t) scenarioText).obligation_sentences.all
        (fun x => OBL_KEYWORDS.any (fun kw => isSub kw (lowerTxt x))) = true) ∧
    ((analyze_contract_text (fun t => [t]) pySplitWs (fun _ => false)
        (fun t => t) scenarioText).termination_sentences.all
        (fun x => TERMINATION_KEYWORDS.any (fun kw => isSub kw (lowerTxt x))) = true) ∧
    ((analyze_contract_text (fun t => [t]) pySplitWs (fun _ => false)
        (fun t => t) scenarioText).obligation_sentences.count scenarioText ≤
      (((fun t : Txt => [t]) scenarioText).map pyStrip).count scenarioText) ∧
    ((analyze_contract_text (fun t => [t]) pySplitWs (fun _ => false)
        (fun t => t) scenarioText).termination_sentences.count scenarioText ≤
      (((fun t : Txt => [t]) scenarioText).map pyStrip).count scenarioText) :=
  ⟨(c9_sentence_keywords (fun t => [t]) pySplitWs (fun _ => false)
      (fun t => t) scenarioText).1,
   (c9_sentence_keywords (fun t => [t]) pySplitWs (fun _ => false)
      (fun t => t) scenarioText).2.1,
   (c9_sentence_keywords (fun t => [t]) pySplitWs (fun _ => false)
      (fun t => t) scenarioText).2.2.1 scenarioText,
   (c9_sentence_keywords (fun t => [t]) pySplitWs (fun _ => false)
      (fun t => t) scenarioText).2.2.2 scenarioText⟩
